import Mathlib

/-!
Shallow embedding of `vl/hikmeans.c` (hierarchical integer k-means) and
verification of its stated properties.

Data points (`vl_ikm_data` arrays of dimensionality `M`) are modelled as
`List Int`; a dataset (`vl_ikm_data const * data` with `N` points of stride
`M`) is a `List (List Int)` of length `N`.  Label arrays (`vl_uint *`) are
`List Nat`.
-/

/-- A flat integer k-means handle (`VlIKMFilt`), as seen by `hikmeans.c`.
`K` is the number of centers the handle was configured with by
`vl_ikm_init_rand_data`; `st` is the abstract trained state of the external
engine. -/
structure VlIKMFilt (σ : Type) where
  K : Nat
  st : σ

/-- Modelled from the spec: the external Flat Clustering Engine of section 6
(`ikmeans`, consumed by this core but not part of it).  `train` folds the
call sequence `vl_ikm_new` / `vl_ikm_set_max_niters` / `vl_ikm_set_verbosity`
/ `vl_ikm_init_rand_data` / `vl_ikm_train` into the trained state reached for
the given method, iteration cap, verbosity, dimensionality, data and `K`;
`pushOne` is `assign_one` (the per-point nearest-center label), and
`assign_batch` labels each point independently, i.e. it is `pushOne` mapped
over the points. -/
structure IKMEngine (σ : Type) where
  train : (method : Int) → (maxNiters : Nat) → (verb : Int) → (M : Nat) →
          (data : List (List Int)) → (K : Nat) → σ
  pushOne : σ → List Int → Nat

/-- Modelled from the spec: `get_branching(handle)` returns the `K` the
handle was actually configured with (section 6, `vl_ikm_get_K`). -/
def vl_ikm_get_K (f : VlIKMFilt σ) : Nat :=
  f.K

/-- A node of the HIKM tree (`VlHIKMNode`).  The C node is a pair of a
filter and a children pointer; `leaf` is the case `children == NULL` and
`internal` the case of an allocated children array. -/
inductive HIKMNode (σ : Type) : Type where
  | leaf (filter : VlIKMFilt σ) : HIKMNode σ
  | internal (filter : VlIKMFilt σ) (children : List (HIKMNode σ)) : HIKMNode σ

/-- `node->filter`. -/
def HIKMNode.filter : HIKMNode σ → VlIKMFilt σ
  | .leaf f => f
  | .internal f _ => f

/-- The HIKM tree record (`VlHIKMTree`): configuration plus the root node
(`root == NULL` is `none`). -/
structure VlHIKMTree (σ : Type) where
  M : Nat
  K : Nat
  max_niters : Nat
  method : Int
  verb : Int
  depth : Nat
  root : Option (HIKMNode σ)

/-- `vl_hikm_get_ndims`. -/
def vl_hikm_get_ndims (f : VlHIKMTree σ) : Nat :=
  f.M

/-- `vl_hikm_get_depth`. -/
def vl_hikm_get_depth (f : VlHIKMTree σ) : Nat :=
  f.depth

/-- First pass of `vl_hikm_copy_subset`: `for (i...) if (ids[i] == id) count++`.
Counts the labels equal to `id`. -/
def countLabel : List Nat → Nat → Nat
  | [], _ => 0
  | l :: ids, id => (if l = id then 1 else 0) + countLabel ids id

/-- Second pass of `vl_hikm_copy_subset`: copy each datum whose label is `id`
into the fresh buffer, in order of increasing index `i`.  The C loop runs
`i` from `0` to `N-1` reading `ids[i]` and `data + i*M`; the recursion
consumes both lists in lockstep. -/
def copyLoop : List (List Int) → List Nat → Nat → List (List Int)
  | [], _, _ => []
  | _, [], _ => []
  | v :: data, l :: ids, id => if l = id then v :: copyLoop data ids id else copyLoop data ids id

/-- `vl_hikm_copy_subset`: returns the fresh buffer and the final value
stored in `*N2` (the number of copied points; the first-pass count only
sizes the buffer and is recomputed by the copy loop). -/
def vl_hikm_copy_subset (data : List (List Int)) (ids : List Nat) (id : Nat) :
    List (List Int) × Nat :=
  let new_data := copyLoop data ids id
  (new_data, new_data.length)

/-- The trained state of the filter built at a node of `xmeans`:
`vl_ikm_new(tree->method)` configured with `tree->max_niters` and
`tree->verb - 1`, seeded by `vl_ikm_init_rand_data(filter, data, tree->M, N, K)`
and refined by `vl_ikm_train(filter, data, N)`. -/
def trainState (E : IKMEngine σ) (t : VlHIKMTree σ) (data : List (List Int)) (K : Nat) : σ :=
  E.train t.method t.max_niters (t.verb - 1) t.M data K

/-- The label array `ids` produced in `xmeans` by
`vl_ikm_push(node->filter, ids, data, N)`: one nearest-center label per
input point. -/
def trainIds (E : IKMEngine σ) (t : VlHIKMTree σ) (data : List (List Int)) (K : Nat) :
    List Nat :=
  data.map (E.pushOne (trainState E t data K))

/-- `xmeans(tree, data, N, K, height)`.  The node's filter is trained on
`data` with branching `K`; `height == 1` yields a leaf (`children = NULL`),
`height > 1` allocates `K` children and builds child `k` from the subset of
points labelled `k`, with branching `VL_MIN(K, partition_N)` and height
`height - 1`.  For `height == 0` the C code allocates a `K`-entry children
array but never fills it (no recursion runs), leaving its contents
indeterminate; this case is unreachable from `vl_hikm_train` with a
positive depth, and the model renders it as an empty children list. -/
def xmeans (E : IKMEngine σ) (t : VlHIKMTree σ) (data : List (List Int)) (K : Nat) :
    (height : Nat) → HIKMNode σ
  | 0 => HIKMNode.internal ⟨K, trainState E t data K⟩ []
  | 1 => HIKMNode.leaf ⟨K, trainState E t data K⟩
  | h + 2 =>
    HIKMNode.internal ⟨K, trainState E t data K⟩
      ((List.range K).map fun k =>
        let part := vl_hikm_copy_subset data (trainIds E t data K) k
        xmeans E t part.1 (min K part.2) (h + 1))

/-- `vl_hikm_new(method)`: default configuration, no root. -/
def vl_hikm_new (σ : Type) (method : Int) : VlHIKMTree σ :=
  ⟨0, 0, 200, method, 0, 0, none⟩

/-- `vl_hikm_train(f, data, N)`:
`f->root = xmeans(f, data, N, VL_MIN(f->K, N), f->depth)`. -/
def vl_hikm_train (E : IKMEngine σ) (f : VlHIKMTree σ) (data : List (List Int)) :
    VlHIKMTree σ :=
  ⟨f.M, f.K, f.max_niters, f.method, f.verb, f.depth,
   some (xmeans E f data (min f.K data.length) f.depth)⟩

/-- One iteration path of the `while (node)` loop in `vl_hikm_push` for a
single datum `x`: compute `best` with `vl_ikm_push(node->filter, &best, x, 1)`,
record it, break if `node->children == NULL`, else continue from
`node->children[best]`.  The loop is bounded by `fuel`; every theorem below
instantiates `fuel` with the tree's depth, which the depth invariant shows
is the exact number of iterations for a trained tree.  When `best` falls
outside the children array the C code reads past the allocation (undefined
behavior); the model ends the walk there. -/
def pushWalk (E : IKMEngine σ) : Nat → HIKMNode σ → List Int → List Nat
  | 0, _, _ => []
  | _ + 1, .leaf f, x => [E.pushOne f.st x]
  | fuel + 1, .internal f cs, x =>
    let best := E.pushOne f.st x
    match cs[best]? with
    | some c => best :: pushWalk E fuel c x
    | none => [best]

/-- `vl_hikm_push(f, asgn, data, N)`: each datum is walked down the tree
independently; datum `i`'s labels occupy `asgn[i*depth + d]` for
`d = 0, 1, ...`, i.e. `asgn` is the concatenation of the per-point paths.
The model returns the list of per-point paths; a tree with `root == NULL`
records nothing for a point. -/
def vl_hikm_push (E : IKMEngine σ) (f : VlHIKMTree σ) (data : List (List Int)) :
    List (List Nat) :=
  data.map fun x =>
    match f.root with
    | none => []
    | some r => pushWalk E (vl_hikm_get_depth f) r x

/-- One deallocation event performed by the lifecycle code:
`vl_ikm_delete(node->filter)`, `vl_free(node->children)`, `vl_free(node)`
and `vl_free(f)` respectively. -/
inductive FreeEvent : Type where
  | filter : FreeEvent
  | childrenArray : FreeEvent
  | node : FreeEvent
  | tree : FreeEvent
deriving DecidableEq, Repr

/-- `xdelete(node)` as the sequence of deallocation events it performs, in
order.  `none` is a `NULL` node (the `if (node)` guard makes the call a
no-op).  At a node with an allocated children array the loop visits
`children[k]` for `k` from `0` to `vl_ikm_get_K(node->filter) - 1`, then
frees the children array, then the filter, then the node; an index beyond
the array's length would be an out-of-bounds read in C and contributes no
events here.  `fuel` bounds the recursion depth and every theorem below
instantiates it at or above the node's build height. -/
def xdelete : Nat → Option (HIKMNode σ) → List FreeEvent
  | _, none => []
  | 0, some _ => []
  | _ + 1, some (.leaf _) => [FreeEvent.filter, FreeEvent.node]
  | fuel + 1, some (.internal f cs) =>
    ((List.range (vl_ikm_get_K f)).map fun k => xdelete fuel cs[k]?).flatten
      ++ [FreeEvent.childrenArray, FreeEvent.filter, FreeEvent.node]

/-- `vl_hikm_delete(f)` on a non-`NULL` tree: `xdelete(f->root)` then
`vl_free(f)`. -/
def vl_hikm_delete (fuel : Nat) (f : VlHIKMTree σ) : List FreeEvent :=
  xdelete fuel f.root ++ [FreeEvent.tree]

/-- `vl_hikm_init(f, M, K, depth)`: `xdelete(f->root)` (the returned event
trace), then `f->root = 0`, `f->M = M`, `f->K = K`, `f->depth = depth`. -/
def vl_hikm_init (fuel : Nat) (f : VlHIKMTree σ) (M K depth : Nat) :
    VlHIKMTree σ × List FreeEvent :=
  (⟨M, K, f.max_niters, f.method, f.verb, depth, none⟩, xdelete fuel f.root)

/-- The Tree Builder contract exactly as the specification words it
(section 4.2), written independently of `xmeans` for the refinement proof:
train a flat clustering model on the points requesting `K` centers, assign
every input point to its nearest center; with one level remaining the node
is a leaf and no children are allocated; otherwise for each label value `k`
in `[0, K)` extract the matching subset via the Partitioner (size `N_k`),
compute the child's branching factor as `min(K, N_k)` and build the child
with `height - 1`, attaching it as child `k`.  The contract leaves
`height == 0` unspecified; the model picks a leaf there (the refinement
theorem assumes `height ≥ 1`). -/
def specBuild (E : IKMEngine σ) (t : VlHIKMTree σ) : (height : Nat) →
    List (List Int) → Nat → HIKMNode σ
  | 0, data, K => HIKMNode.leaf ⟨K, trainState E t data K⟩
  | 1, data, K => HIKMNode.leaf ⟨K, trainState E t data K⟩
  | h + 2, data, K =>
    HIKMNode.internal ⟨K, trainState E t data K⟩
      (List.ofFn fun k : Fin K =>
        let subset := vl_hikm_copy_subset data (trainIds E t data K) k.val
        specBuild E t (h + 1) subset.1 (min K subset.2))

/-- Destruction order as the claim words it: for each node, recursively
destroy the children, then free the node's clustering model, then free its
children array, then free the node itself.  A leaf has no children and no
children array, so only its model and the node record are freed. -/
def specDeleteClaimed : Nat → HIKMNode σ → List FreeEvent
  | 0, _ => []
  | _ + 1, .leaf _ => [FreeEvent.filter, FreeEvent.node]
  | fuel + 1, .internal _ cs =>
    (cs.map fun c => specDeleteClaimed fuel c).flatten
      ++ [FreeEvent.filter, FreeEvent.childrenArray, FreeEvent.node]

/-- Destruction order as amended: for each node, recursively destroy the
children, then free the children array, then free the node's clustering
model, then free the node itself. -/
def specDelete : Nat → HIKMNode σ → List FreeEvent
  | 0, _ => []
  | _ + 1, .leaf _ => [FreeEvent.filter, FreeEvent.node]
  | fuel + 1, .internal _ cs =>
    (cs.map fun c => specDelete fuel c).flatten
      ++ [FreeEvent.childrenArray, FreeEvent.filter, FreeEvent.node]

/-- A root-to-leaf path in a tree, measured in nodes: a leaf (a node whose
children pointer is `NULL`) is a path of one node, and a path from an
internal node steps into one of its children. -/
inductive RootLeafPath : HIKMNode σ → Nat → Prop where
  | leaf (f : VlIKMFilt σ) : RootLeafPath (.leaf f) 1
  | step (f : VlIKMFilt σ) (cs : List (HIKMNode σ)) (c : HIKMNode σ) (n : Nat) :
      c ∈ cs → RootLeafPath c n → RootLeafPath (.internal f cs) (n + 1)

/-- Every internal node of the tree was trained with a positive branching
factor (equivalently: no empty training subset occurred at an internal
node). -/
inductive PosBranching : HIKMNode σ → Prop where
  | leaf (f : VlIKMFilt σ) : PosBranching (.leaf f)
  | internal (f : VlIKMFilt σ) (cs : List (HIKMNode σ)) :
      0 < f.K → (∀ c ∈ cs, PosBranching c) → PosBranching (.internal f cs)

/-- At every node of the tree, the children array (when allocated) has
exactly `vl_ikm_get_K(node->filter)` entries. -/
inductive ChildrenMatchK : HIKMNode σ → Prop where
  | leaf (f : VlIKMFilt σ) : ChildrenMatchK (.leaf f)
  | internal (f : VlIKMFilt σ) (cs : List (HIKMNode σ)) :
      cs.length = vl_ikm_get_K f → (∀ c ∈ cs, ChildrenMatchK c) →
      ChildrenMatchK (.internal f cs)

/-- The engine contract of section 6: `assign_one` returns the label of a
nearest center among the `K` centers the handle was trained with, hence a
label in `[0, K)` whenever `K > 0`. -/
def ValidEngine (E : IKMEngine σ) : Prop :=
  ∀ (method : Int) (niters : Nat) (verb : Int) (M : Nat) (data : List (List Int))
    (K : Nat) (x : List Int),
    0 < K → E.pushOne (E.train method niters verb M data K) x < K

/-- A concrete engine instance used to evaluate the development on closed
inputs: the trained state records `K` and every point is assigned to
center `0`. -/
def constEngine : IKMEngine Nat where
  train := fun _ _ _ _ _ K => K
  pushOne := fun _ _ => 0

/-- A concrete configured tree: `M = 1`, `K = 2`, `depth = 2`. -/
def tree0 : VlHIKMTree Nat :=
  ⟨1, 2, 200, 0, 0, 2, none⟩

/-- A concrete two-point dataset of dimensionality 1. -/
def data0 : List (List Int) :=
  [[0], [1]]

/-- The copy loop selects exactly the data whose parallel label equals the
target, keeping the original relative order. -/
theorem copyLoop_eq_filter (data : List (List Int)) (ids : List Nat) (id : Nat) :
    copyLoop data ids id =
      ((data.zip ids).filter fun p => p.2 == id).map Prod.fst := by
  induction data generalizing ids with
  | nil => simp [copyLoop]
  | cons v data ih =>
    cases ids with
    | nil => simp [copyLoop]
    | cons l ids =>
      by_cases h : l = id
      · simp [copyLoop, h, ih]
      · simp [copyLoop, h, ih]

/-- The copied buffer is a sublist of the input data. -/
theorem copyLoop_sublist (data : List (List Int)) (ids : List Nat) (id : Nat) :
    (copyLoop data ids id).Sublist data := by
  induction data generalizing ids with
  | nil => simp [copyLoop]
  | cons v data ih =>
    cases ids with
    | nil => simp [copyLoop]
    | cons l ids =>
      by_cases h : l = id
      · simpa [copyLoop, h] using List.Sublist.cons₂ v (ih ids)
      · simpa [copyLoop, h] using List.Sublist.cons v (ih ids)

/-- On parallel arrays, the copy loop produces as many points as the first
counting pass found. -/
theorem copyLoop_length (data : List (List Int)) (ids : List Nat) (id : Nat)
    (hlen : data.length = ids.length) :
    (copyLoop data ids id).length = countLabel ids id := by
  induction data generalizing ids with
  | nil =>
    cases ids with
    | nil => simp [copyLoop, countLabel]
    | cons l ids => simp at hlen
  | cons v data ih =>
    cases ids with
    | nil => simp at hlen
    | cons l ids =>
      simp only [List.length_cons, Nat.succ.injEq] at hlen
      by_cases h : l = id
      · subst h
        simp [copyLoop, countLabel, ih ids hlen]
        omega
      · simp [copyLoop, countLabel, h, ih ids hlen]

/-- When no label matches, nothing is copied. -/
theorem copyLoop_eq_nil (data : List (List Int)) (ids : List Nat) (id : Nat)
    (h : ∀ l ∈ ids, l ≠ id) : copyLoop data ids id = [] := by
  induction data generalizing ids with
  | nil => simp [copyLoop]
  | cons v data ih =>
    cases ids with
    | nil => simp [copyLoop]
    | cons l ids =>
      have hl : l ≠ id := h l (List.mem_cons_self _ _)
      simpa [copyLoop, hl] using ih ids (fun x hx => h x (List.mem_cons_of_mem _ hx))

/-- A label below `K` is counted exactly once across the indicator terms of
`0, 1, ..., K-1`. -/
theorem indicator_sum_range (l K : Nat) (hl : l < K) :
    ((List.range K).map fun k => if l = k then 1 else 0).sum = 1 := by
  induction K with
  | zero => omega
  | succ K ih =>
    rw [List.range_succ, List.map_append, List.sum_append]
    by_cases h : l = K
    · subst h
      have hz : ((List.range l).map fun k => if l = k then 1 else 0).sum = 0 := by
        apply List.sum_eq_zero
        intro x hx
        simp only [List.mem_map, List.mem_range] at hx
        obtain ⟨k, hk, rfl⟩ := hx
        simp [Nat.ne_of_gt hk]
      simp [hz]
    · have hlK : l < K := by omega
      simp [ih hlK, h]

/-- The per-label counts over labels `0, 1, ..., K-1` sum to the total
number of labels, provided every label lies in `[0, K)`. -/
theorem countLabel_sum_range (ids : List Nat) (K : Nat) (hK : ∀ l ∈ ids, l < K) :
    ((List.range K).map fun k => countLabel ids k).sum = ids.length := by
  induction ids with
  | nil => simp [countLabel]
  | cons l ids ih =>
    have hl : l < K := hK l (List.mem_cons_self _ _)
    have htail : ∀ x ∈ ids, x < K := fun x hx => hK x (List.mem_cons_of_mem _ hx)
    calc ((List.range K).map fun k => countLabel (l :: ids) k).sum
        = ((List.range K).map fun k => (if l = k then 1 else 0) + countLabel ids k).sum := by
          simp [countLabel]
      _ = ((List.range K).map fun k => if l = k then 1 else 0).sum
            + ((List.range K).map fun k => countLabel ids k).sum := List.sum_map_add
      _ = 1 + ids.length := by rw [indicator_sum_range l K hl, ih htail]
      _ = (l :: ids).length := by simp [Nat.add_comm]

/-- Updating the `l`-th block of a `K`-block concatenation by prepending `v`
permutes to prepending `v` to the whole concatenation. -/
theorem flatten_update_perm {α : Type} (f g : Nat → List α) (v : α) (l K : Nat)
    (hl : l < K) (hg : g l = v :: f l) (hne : ∀ k, k ≠ l → g k = f k) :
    ((List.range K).map g).flatten.Perm (v :: ((List.range K).map f).flatten) := by
  induction K with
  | zero => omega
  | succ K ih =>
    rw [List.range_succ, List.map_append, List.map_append,
        List.flatten_append, List.flatten_append]
    by_cases h : l = K
    · subst h
      have hpre : (List.range l).map g = (List.range l).map f := by
        apply List.map_congr_left
        intro k hk
        exact hne k (Nat.ne_of_lt (List.mem_range.mp hk))
      rw [hpre]
      simp only [List.map_cons, List.map_nil, List.flatten_cons, List.flatten_nil,
        List.append_nil, hg]
      exact List.perm_middle
    · have hlK : l < K := by omega
      have hlast : g K = f K := hne K (by omega)
      simp only [List.map_cons, List.map_nil, List.flatten_cons, List.flatten_nil,
        List.append_nil, hlast]
      exact (ih hlK).append_right _

/-- Concatenating the `K` per-label subsets recovers the data up to
permutation: every input point lands in exactly one subset. -/
theorem copyLoop_flatten_perm (data : List (List Int)) (ids : List Nat) (K : Nat)
    (hlen : data.length = ids.length) (hK : ∀ l ∈ ids, l < K) :
    ((List.range K).map fun k => copyLoop data ids k).flatten.Perm data := by
  induction data generalizing ids with
  | nil =>
    have : ∀ k ∈ List.range K, copyLoop [] ids k = ([] : List (List Int)) := by
      intro k _; simp [copyLoop]
    rw [List.map_congr_left this]
    simp
  | cons v data ih =>
    cases ids with
    | nil => simp at hlen
    | cons l ids =>
      simp only [List.length_cons, Nat.succ.injEq] at hlen
      have hl : l < K := hK l (List.mem_cons_self _ _)
      have htail : ∀ x ∈ ids, x < K := fun x hx => hK x (List.mem_cons_of_mem _ hx)
      have hstep : ((List.range K).map fun k => copyLoop (v :: data) (l :: ids) k).flatten.Perm
          (v :: ((List.range K).map fun k => copyLoop data ids k).flatten) := by
        apply flatten_update_perm _ _ v l K hl
        · simp [copyLoop]
        · intro k hk
          have hne : l ≠ k := fun h => hk h.symm
          simp [copyLoop, hne]
      exact hstep.trans ((ih ids hlen htail).cons v)

/-- Unfolding of `xmeans` at `height == 1`: a leaf node, trained on the data
with branching `K`. -/
theorem xmeans_one (E : IKMEngine σ) (t : VlHIKMTree σ) (data : List (List Int)) (K : Nat) :
    xmeans E t data K 1 = HIKMNode.leaf ⟨K, trainState E t data K⟩ :=
  rfl

/-- Unfolding of `xmeans` at `height > 1`: an internal node whose children
array has one entry per label in `[0, K)`, each built from the matching
subset with the clamped branching factor and one less level. -/
theorem xmeans_succ_succ (E : IKMEngine σ) (t : VlHIKMTree σ) (data : List (List Int))
    (K h : Nat) :
    xmeans E t data K (h + 2) =
      HIKMNode.internal ⟨K, trainState E t data K⟩
        ((List.range K).map fun k =>
          xmeans E t (vl_hikm_copy_subset data (trainIds E t data K) k).1
            (min K (vl_hikm_copy_subset data (trainIds E t data K) k).2) (h + 1)) :=
  rfl

/-- Every node of a tree built by `xmeans` with positive height carries a
children array of exactly `vl_ikm_get_K(node->filter)` entries whenever one
is allocated: the same `K` is passed to the children allocation and to
`vl_ikm_init_rand_data`. -/
theorem xmeans_childrenMatchK (E : IKMEngine σ) (t : VlHIKMTree σ) :
    ∀ h, 1 ≤ h → ∀ data K, ChildrenMatchK (xmeans E t data K h) := by
  intro h
  induction h using Nat.strong_induction_on with
  | _ h ih =>
    intro h1 data K
    obtain _ | _ | hh := h
    · omega
    · exact ChildrenMatchK.leaf _
    · rw [xmeans_succ_succ]
      refine ChildrenMatchK.internal _ _ ?_ ?_
      · simp [vl_ikm_get_K]
      · intro c hc
        simp only [List.mem_map, List.mem_range] at hc
        obtain ⟨k, _, rfl⟩ := hc
        exact ih (hh + 1) (by omega) (by omega) _ _

/-- Enumerating positions `0, 1, ..., length - 1` of a list by `getElem?`
visits exactly its entries. -/
theorem range_length_map_getElem? {α : Type} (cs : List α) :
    ((List.range cs.length).map fun k => cs[k]?) = cs.map some := by
  apply List.ext_getElem?
  intro n
  by_cases hn : n < cs.length
  · simp [List.getElem?_map, List.getElem?_range hn, List.getElem?_eq_getElem hn]
  · have h1 : cs.length ≤ n := by omega
    rw [List.getElem?_eq_none (by simpa using h1), List.getElem?_eq_none (by simpa using h1)]

/-- Depth invariant for `xmeans`: every root-to-leaf path in a tree built
at height `h ≥ 1` has exactly `h` nodes, whatever branching clamping
happened along the way.  (A node built at height `0` — unreachable for a
positive depth — has no leaf descendants, so the statement is about the
paths that exist.) -/
theorem xmeans_rootLeafPath (E : IKMEngine σ) (t : VlHIKMTree σ) :
    ∀ (node : HIKMNode σ) (n : Nat), RootLeafPath node n →
      ∀ h data K, node = xmeans E t data K h → 1 ≤ h → n = h := by
  intro node n hpath
  induction hpath with
  | leaf f =>
    intro h data K hnode h1
    obtain _ | _ | hh := h
    · omega
    · rfl
    · rw [xmeans_succ_succ] at hnode
      exact absurd hnode (by simp)
  | step f cs c n hmem _ ih =>
    intro h data K hnode h1
    obtain _ | _ | hh := h
    · omega
    · rw [xmeans_one] at hnode
      exact absurd hnode (by simp)
    · rw [xmeans_succ_succ] at hnode
      injection hnode with hf hcs
      subst hf hcs
      simp only [List.mem_map, List.mem_range] at hmem
      obtain ⟨k, _, hc⟩ := hmem
      have := ih (hh + 1) _ _ hc.symm (by omega)
      omega

/-- Walk length for trees built by `xmeans`: provided the engine returns
in-range labels and every internal node was trained with a positive
branching factor, the query walk descends one child per level and records
exactly `h` labels on a tree built at height `h ≥ 1` (for any loop bound of
at least `h`). -/
theorem pushWalk_xmeans_length (E : IKMEngine σ) (t : VlHIKMTree σ)
    (hE : ValidEngine E) :
    ∀ h, 1 ≤ h → ∀ fuel, h ≤ fuel → ∀ data K (x : List Int),
      PosBranching (xmeans E t data K h) →
      (pushWalk E fuel (xmeans E t data K h) x).length = h := by
  intro h
  induction h using Nat.strong_induction_on with
  | _ h ih =>
    intro h1 fuel hf data K x hp
    obtain _ | _ | hh := h
    · omega
    · obtain _ | fu := fuel
      · omega
      · rfl
    · obtain _ | fu := fuel
      · omega
      · rw [xmeans_succ_succ] at hp ⊢
        have hK : 0 < K := by
          cases hp with
          | internal f cs hKf _ => exact hKf
        have hcs : ∀ c ∈ ((List.range K).map fun k =>
            xmeans E t (vl_hikm_copy_subset data (trainIds E t data K) k).1
              (min K (vl_hikm_copy_subset data (trainIds E t data K) k).2) (hh + 1)),
            PosBranching c := by
          cases hp with
          | internal f cs _ hall => exact hall
        have hbest : E.pushOne (trainState E t data K) x < K :=
          hE t.method t.max_niters (t.verb - 1) t.M data K x hK
        have hget : ((List.range K).map fun k =>
            xmeans E t (vl_hikm_copy_subset data (trainIds E t data K) k).1
              (min K (vl_hikm_copy_subset data (trainIds E t data K) k).2)
              (hh + 1))[E.pushOne (trainState E t data K) x]? =
            some (xmeans E t
              (vl_hikm_copy_subset data (trainIds E t data K)
                (E.pushOne (trainState E t data K) x)).1
              (min K (vl_hikm_copy_subset data (trainIds E t data K)
                (E.pushOne (trainState E t data K) x)).2) (hh + 1)) := by
          rw [List.getElem?_map, List.getElem?_range hbest]
          rfl
        rw [pushWalk]
        simp only [hget]
        rw [List.length_cons]
        have hrec := ih (hh + 1) (by omega) (by omega) fu (by omega)
          (vl_hikm_copy_subset data (trainIds E t data K)
            (E.pushOne (trainState E t data K) x)).1
          (min K (vl_hikm_copy_subset data (trainIds E t data K)
            (E.pushOne (trainState E t data K) x)).2) x
          (hcs _ (List.mem_map_of_mem _ (List.mem_range.mpr hbest)))
        rw [hrec]

/-- Indexing a concatenation of equal-length blocks: when every block has
length `D`, position `i * D + d` of the concatenation is position `d` of
block `i`. -/
theorem flatten_getElem?_uniform {α : Type} (D : Nat) :
    ∀ (L : List (List α)), (∀ p ∈ L, p.length = D) → ∀ i d, d < D →
      L.flatten[i * D + d]? = (L[i]?.bind fun p => p[d]?) := by
  intro L
  induction L with
  | nil => intro _ i d _; simp
  | cons p rest ihL =>
    intro hall i d hd
    have hp : p.length = D := hall p (List.mem_cons_self _ _)
    have htail : ∀ q ∈ rest, q.length = D := fun q hq => hall q (List.mem_cons_of_mem _ hq)
    cases i with
    | zero =>
      rw [List.flatten_cons, Nat.zero_mul, Nat.zero_add, List.getElem?_append]
      rw [if_pos (by omega)]
      simp
    | succ i =>
      rw [List.flatten_cons, Nat.succ_mul, List.getElem?_append]
      rw [if_neg (by omega)]
      have hidx : i * D + D + d - p.length = i * D + d := by omega
      rw [hidx, ihL htail i d hd]
      simp

/-- The builder as specified (section 4.2) and the builder as implemented
(`xmeans`) produce the same tree for every positive height. -/
theorem specBuild_eq_xmeans (E : IKMEngine σ) (t : VlHIKMTree σ) :
    ∀ h, 1 ≤ h → ∀ data K, specBuild E t h data K = xmeans E t data K h := by
  intro h
  induction h using Nat.strong_induction_on with
  | _ h ih =>
    intro h1 data K
    obtain _ | _ | hh := h
    · omega
    · rfl
    · rw [xmeans_succ_succ, specBuild]
      congr 1
      apply List.ext_getElem?
      intro n
      by_cases hn : n < K
      · rw [List.getElem?_ofFn]
        rw [List.getElem?_map, List.getElem?_range hn]
        simp only [List.ofFnNthVal, dif_pos hn, Option.map_some]
        rw [ih (hh + 1) (by omega) (by omega)]
        rfl
      · rw [List.getElem?_ofFn]
        simp only [List.ofFnNthVal, dif_neg hn]
        rw [List.getElem?_eq_none (by simp; omega)]

/-- For trees built by `xmeans`, the `xdelete` loop over
`k < vl_ikm_get_K(node->filter)` visits exactly the children list, and the
event trace matches the per-node order: children recursively, children
array, clustering model, node. -/
theorem xdelete_xmeans_eq_specDelete (E : IKMEngine σ) (t : VlHIKMTree σ) :
    ∀ h, 1 ≤ h → ∀ fuel, h ≤ fuel → ∀ data K,
      xdelete fuel (some (xmeans E t data K h)) =
        specDelete fuel (xmeans E t data K h) := by
  intro h
  induction h using Nat.strong_induction_on with
  | _ h ih =>
    intro h1 fuel hf data K
    obtain _ | _ | hh := h
    · omega
    · obtain _ | fu := fuel
      · omega
      · rfl
    · obtain _ | fu := fuel
      · omega
      · rw [xmeans_succ_succ, xdelete, specDelete]
        congr 1
        congr 1
        rw [List.map_map]
        have hK : vl_ikm_get_K (⟨K, trainState E t data K⟩ : VlIKMFilt σ) = K := rfl
        rw [hK]
        apply List.map_congr_left
        intro k hk
        have hkK : k < K := List.mem_range.mp hk
        rw [List.getElem?_map, List.getElem?_range hkK]
        simp only [Option.map_some, Function.comp]
        exact ih (hh + 1) (by omega) (by omega) fu (by omega) _ _

/-- The filter of a node built by `xmeans` records exactly the branching
factor `K` that call received, with the state trained on that call's data. -/
theorem xmeans_filter (E : IKMEngine σ) (t : VlHIKMTree σ) (data : List (List Int))
    (K : Nat) : ∀ h, (xmeans E t data K h).filter = ⟨K, trainState E t data K⟩
  | 0 => rfl
  | 1 => rfl
  | _ + 2 => rfl

/-- C1: for every tree trained by `vl_hikm_train` with configured depth
`D ≥ 1`, every path from the root to a leaf (a node with no children)
contains exactly `D` nodes; per-node clamping of the branching factor never
changes any path length, because `xmeans` decrements the height by exactly
one per level and stops allocating children exactly at height one. -/
theorem claim_C1_depth_invariant (E : IKMEngine σ) (f : VlHIKMTree σ)
    (data : List (List Int)) (r : HIKMNode σ) (n : Nat)
    (hD : 1 ≤ f.depth)
    (hroot : (vl_hikm_train E f data).root = some r)
    (hpath : RootLeafPath r n) :
    n = f.depth := by
  have hr : xmeans E f data (min f.K data.length) f.depth = r := Option.some.inj hroot
  exact xmeans_rootLeafPath E f r n hpath f.depth data (min f.K data.length) hr.symm hD

/-- Witness for C1: a concrete depth-2 training run in which a concrete
root-to-leaf path indeed has 2 nodes. -/
theorem claim_C1_witness :
    1 ≤ tree0.depth ∧
    (vl_hikm_train constEngine tree0 data0).root =
      some (xmeans constEngine tree0 data0 (min tree0.K data0.length) tree0.depth) ∧
    RootLeafPath (xmeans constEngine tree0 data0 (min tree0.K data0.length) tree0.depth) 2 ∧
    2 = tree0.depth := by
  have hpath : RootLeafPath
      (xmeans constEngine tree0 data0 (min tree0.K data0.length) tree0.depth) 2 := by
    have he : xmeans constEngine tree0 data0 (min tree0.K data0.length) tree0.depth =
        HIKMNode.internal ⟨2, 2⟩ [HIKMNode.leaf ⟨2, 2⟩, HIKMNode.leaf ⟨0, 0⟩] := rfl
    rw [he]
    exact RootLeafPath.step _ _ _ _ (List.mem_cons_self _ _) (RootLeafPath.leaf _)
  exact ⟨by decide, rfl, hpath,
    claim_C1_depth_invariant constEngine tree0 data0 _ 2 (by decide) rfl hpath⟩

/-- C2: a node built by `xmeans` at height 1 is a leaf (no children array);
a node built at height `h + 2` has a children array of exactly `K` entries,
`K` being the branching factor its own filter was trained with, and the
child at position `k` was trained with branching factor
`min(K, N_k)` where `N_k` is the number of points assigned to cluster `k`. -/
theorem claim_C2_branching (E : IKMEngine σ) (t : VlHIKMTree σ)
    (data : List (List Int)) (K h : Nat) :
    xmeans E t data K 1 = HIKMNode.leaf ⟨K, trainState E t data K⟩ ∧
    ∃ cs, xmeans E t data K (h + 2) =
        HIKMNode.internal ⟨K, trainState E t data K⟩ cs ∧
      cs.length = K ∧
      ∀ k : Fin K, ∃ c, cs[k.val]? = some c ∧
        vl_ikm_get_K c.filter =
          min K (vl_hikm_copy_subset data (trainIds E t data K) k.val).2 := by
  refine ⟨xmeans_one E t data K, ?_⟩
  refine ⟨_, xmeans_succ_succ E t data K h, by simp, ?_⟩
  intro k
  refine ⟨xmeans E t (vl_hikm_copy_subset data (trainIds E t data K) k.val).1
      (min K (vl_hikm_copy_subset data (trainIds E t data K) k.val).2) (h + 1), ?_, ?_⟩
  · rw [List.getElem?_map, List.getElem?_range k.isLt]
    rfl
  · rw [xmeans_filter]
    rfl

/-- C3: the builder recursion follows the specified steps — for each label
`k` in `[0, K)` in ascending order it extracts the subset of points
labelled `k`, computes the child's branching as `min(K, N_k)`, builds the
child at `height - 1` and stores it at `children[k]` (a label with
`N_k == 0` still producing a child built on zero points) — and the
top-level call made by `vl_hikm_train` is
`build(fullDataset, N, min(configured K, N), depth)`. -/
theorem claim_C3_builder_steps (E : IKMEngine σ) (f : VlHIKMTree σ)
    (data : List (List Int)) (h K : Nat) (h1 : 1 ≤ h) (hD : 1 ≤ f.depth) :
    specBuild E f h data K = xmeans E f data K h ∧
    vl_hikm_train E f data =
      ⟨f.M, f.K, f.max_niters, f.method, f.verb, f.depth,
       some (specBuild E f f.depth data (min f.K data.length))⟩ := by
  refine ⟨specBuild_eq_xmeans E f h h1 data K, ?_⟩
  rw [vl_hikm_train, specBuild_eq_xmeans E f f.depth hD]

/-- Witness for C3 at a concrete depth-2 training run. -/
theorem claim_C3_witness :
    (1 ≤ 2 ∧ 1 ≤ tree0.depth) ∧
    (specBuild constEngine tree0 2 data0 2 = xmeans constEngine tree0 data0 2 2 ∧
     vl_hikm_train constEngine tree0 data0 =
       ⟨tree0.M, tree0.K, tree0.max_niters, tree0.method, tree0.verb, tree0.depth,
        some (specBuild constEngine tree0 tree0.depth data0 (min tree0.K data0.length))⟩) :=
  ⟨⟨by decide, by decide⟩,
   claim_C3_builder_steps constEngine tree0 data0 2 2 (by decide) (by decide)⟩

/-- C4: for a tree trained at depth `D ≥ 1` (with an engine honoring the
label-range contract and no internal node trained on an empty subset),
`vl_hikm_push` records, for every query point, exactly `D` labels — one per
level, descending into `children[best]` and stopping at a node with no
children — and the flat assignment array holds point `i`'s label for level
`d` at position `i * D + d`. -/
theorem claim_C4_push_paths (E : IKMEngine σ) (f : VlHIKMTree σ)
    (tdata qdata : List (List Int))
    (hE : ValidEngine E) (hD : 1 ≤ f.depth)
    (hp : PosBranching (xmeans E f tdata (min f.K tdata.length) f.depth)) :
    (vl_hikm_push E (vl_hikm_train E f tdata) qdata).length = qdata.length ∧
    (∀ p ∈ vl_hikm_push E (vl_hikm_train E f tdata) qdata, p.length = f.depth) ∧
    (∀ i d, d < f.depth →
      (vl_hikm_push E (vl_hikm_train E f tdata) qdata).flatten[i * f.depth + d]? =
        ((vl_hikm_push E (vl_hikm_train E f tdata) qdata)[i]?.bind fun p => p[d]?)) := by
  have hlen : ∀ p ∈ vl_hikm_push E (vl_hikm_train E f tdata) qdata,
      p.length = f.depth := by
    intro p hp'
    simp only [vl_hikm_push, List.mem_map] at hp'
    obtain ⟨x, _, rfl⟩ := hp'
    exact pushWalk_xmeans_length E f hE f.depth hD f.depth le_rfl tdata
      (min f.K tdata.length) x hp
  refine ⟨by simp [vl_hikm_push], hlen, ?_⟩
  intro i d hd
  exact flatten_getElem?_uniform f.depth _ hlen i d hd

/-- Witness for C4: the concrete depth-2 tree assigns 2 labels per point. -/
theorem claim_C4_witness :
    (ValidEngine constEngine ∧ 1 ≤ tree0.depth ∧
      PosBranching (xmeans constEngine tree0 data0 (min tree0.K data0.length) tree0.depth)) ∧
    (∀ p ∈ vl_hikm_push constEngine (vl_hikm_train constEngine tree0 data0) data0,
      p.length = tree0.depth) := by
  have hE : ValidEngine constEngine := fun _ _ _ _ _ _ _ hK => hK
  have hp : PosBranching
      (xmeans constEngine tree0 data0 (min tree0.K data0.length) tree0.depth) := by
    have he : xmeans constEngine tree0 data0 (min tree0.K data0.length) tree0.depth =
        HIKMNode.internal ⟨2, 2⟩ [HIKMNode.leaf ⟨2, 2⟩, HIKMNode.leaf ⟨0, 0⟩] := rfl
    rw [he]
    refine PosBranching.internal _ _ (by decide) ?_
    intro c hc
    rcases List.mem_cons.mp hc with rfl | hc
    · exact PosBranching.leaf _
    · rcases List.mem_cons.mp hc with rfl | hc
      · exact PosBranching.leaf _
      · simp at hc
  exact ⟨⟨hE, by decide, hp⟩,
    (claim_C4_push_paths constEngine tree0 data0 data0 hE (by decide) hp).2.1⟩

/-- C5: `vl_hikm_copy_subset` on parallel `data`/`ids` arrays returns a
buffer holding exactly the points labelled `id`, in original relative
order (a sublist of the input), stores their count in `*N2` (which agrees
with the first counting pass), and on no match yields an empty buffer with
count 0 rather than failing.  The model is pure, so the inputs are
untouched by construction. -/
theorem claim_C5_copy_subset (data : List (List Int)) (ids : List Nat) (id : Nat)
    (hlen : data.length = ids.length) :
    (vl_hikm_copy_subset data ids id).1 =
        ((data.zip ids).filter fun p => p.2 == id).map Prod.fst ∧
    (vl_hikm_copy_subset data ids id).2 = (vl_hikm_copy_subset data ids id).1.length ∧
    (vl_hikm_copy_subset data ids id).2 = countLabel ids id ∧
    (vl_hikm_copy_subset data ids id).1.Sublist data ∧
    ((∀ l ∈ ids, l ≠ id) →
      (vl_hikm_copy_subset data ids id).1 = [] ∧
      (vl_hikm_copy_subset data ids id).2 = 0) := by
  refine ⟨copyLoop_eq_filter data ids id, rfl, copyLoop_length data ids id hlen,
    copyLoop_sublist data ids id, ?_⟩
  intro h
  have hnil := copyLoop_eq_nil data ids id h
  exact ⟨hnil, by simp [vl_hikm_copy_subset, hnil]⟩

/-- Witness for C5 on a concrete dataset, including the no-match case. -/
theorem claim_C5_witness :
    (data0.length = ([0, 1] : List Nat).length) ∧
    ((vl_hikm_copy_subset data0 [0, 1] 1).1 =
        ((data0.zip [0, 1]).filter fun p => p.2 == 1).map Prod.fst ∧
     (vl_hikm_copy_subset data0 [0, 1] 1).2 =
        (vl_hikm_copy_subset data0 [0, 1] 1).1.length ∧
     (vl_hikm_copy_subset data0 [0, 1] 1).2 = countLabel [0, 1] 1 ∧
     (vl_hikm_copy_subset data0 [0, 1] 1).1.Sublist data0 ∧
     ((∀ l ∈ ([0, 1] : List Nat), l ≠ 1) →
       (vl_hikm_copy_subset data0 [0, 1] 1).1 = [] ∧
       (vl_hikm_copy_subset data0 [0, 1] 1).2 = 0)) :=
  ⟨by decide, claim_C5_copy_subset data0 [0, 1] 1 (by decide)⟩

/-- C6: over any label array whose entries all lie in `[0, K)`, the counts
returned by `vl_hikm_copy_subset` for the labels `0, 1, ..., K - 1` sum to
`N`, and the concatenation of the `K` returned subsets is a permutation of
the data: every original point occurrence lands in exactly one subset. -/
theorem claim_C6_partition_completeness (data : List (List Int)) (ids : List Nat)
    (K : Nat) (hlen : data.length = ids.length) (hK : ∀ l ∈ ids, l < K) :
    ((List.range K).map fun k => (vl_hikm_copy_subset data ids k).2).sum = data.length ∧
    ((List.range K).map fun k => (vl_hikm_copy_subset data ids k).1).flatten.Perm data := by
  constructor
  · have hcnt : ∀ k ∈ List.range K,
        (vl_hikm_copy_subset data ids k).2 = countLabel ids k :=
      fun k _ => copyLoop_length data ids k hlen
    rw [List.map_congr_left hcnt, countLabel_sum_range ids K hK, hlen]
  · exact copyLoop_flatten_perm data ids K hlen hK

/-- Witness for C6 on a concrete dataset with `K = 2`. -/
theorem claim_C6_witness :
    (data0.length = ([0, 1] : List Nat).length ∧ (∀ l ∈ ([0, 1] : List Nat), l < 2)) ∧
    (((List.range 2).map fun k => (vl_hikm_copy_subset data0 [0, 1] k).2).sum =
        data0.length ∧
     ((List.range 2).map fun k =>
        (vl_hikm_copy_subset data0 [0, 1] k).1).flatten.Perm data0) :=
  ⟨⟨by decide, by decide⟩,
   claim_C6_partition_completeness data0 [0, 1] 2 (by decide) (by decide)⟩

/-- C7: `vl_hikm_push` is deterministic and per-point independent — the
path recorded for a point depends only on that point's data and the tree
(not on the other query points, their order, or previous calls), and the
traversal mutates nothing (it is a pure function of the tree in this
embedding). -/
theorem claim_C7_determinism (E : IKMEngine σ) (f : VlHIKMTree σ)
    (d1 d2 : List (List Int)) (i j : Nat) (x : List Int)
    (h1 : d1[i]? = some x) (h2 : d2[j]? = some x) :
    (vl_hikm_push E f d1)[i]? = (vl_hikm_push E f d2)[j]? ∧
    vl_hikm_push E f (d1 ++ d2) = vl_hikm_push E f d1 ++ vl_hikm_push E f d2 := by
  constructor
  · rw [vl_hikm_push, vl_hikm_push, List.getElem?_map, List.getElem?_map, h1, h2]
  · rw [vl_hikm_push, vl_hikm_push, vl_hikm_push, List.map_append]

/-- Witness for C7: the same point queried at different positions of
different batches gets the same path. -/
theorem claim_C7_witness :
    (data0[0]? = some [0] ∧ ([[5], [0]] : List (List Int))[1]? = some [0]) ∧
    ((vl_hikm_push constEngine (vl_hikm_train constEngine tree0 data0) data0)[0]? =
      (vl_hikm_push constEngine (vl_hikm_train constEngine tree0 data0) [[5], [0]])[1]? ∧
     vl_hikm_push constEngine (vl_hikm_train constEngine tree0 data0) (data0 ++ [[5], [0]]) =
       vl_hikm_push constEngine (vl_hikm_train constEngine tree0 data0) data0 ++
       vl_hikm_push constEngine (vl_hikm_train constEngine tree0 data0) [[5], [0]]) :=
  ⟨⟨by decide, by decide⟩,
   claim_C7_determinism constEngine (vl_hikm_train constEngine tree0 data0)
     data0 [[5], [0]] 0 1 [0] (by decide) (by decide)⟩

/-- C8 counterexample: on a concrete trained depth-2 tree, the event trace
of `xdelete` differs from the order stated by the claim (children
recursively, then clustering model, then children array, then node): the
code frees the children array before the clustering model. -/
theorem claim_C8_counterexample :
    xdelete 2 (some (xmeans constEngine tree0 data0 2 2)) ≠
      specDeleteClaimed 2 (xmeans constEngine tree0 data0 2 2) := by
  decide

/-- C8 (amended): `vl_hikm_delete` on a tree whose root is null frees only
the tree record (the recursive delete is a no-op on a null node); on a
trained tree it frees bottom-up — each node's children recursively, then
the node's children array, then its clustering model, then the node itself,
then the tree record. -/
theorem claim_C8_delete_order (E : IKMEngine σ) (t : VlHIKMTree σ)
    (data : List (List Int)) (K h fuel : Nat) (h1 : 1 ≤ h) (hf : h ≤ fuel) :
    (∀ g : VlHIKMTree σ, g.root = none → vl_hikm_delete fuel g = [FreeEvent.tree]) ∧
    (∀ g : VlHIKMTree σ, g.root = some (xmeans E t data K h) →
      vl_hikm_delete fuel g =
        specDelete fuel (xmeans E t data K h) ++ [FreeEvent.tree]) := by
  constructor
  · intro g hg
    rw [vl_hikm_delete, hg]
    cases fuel <;> rfl
  · intro g hg
    rw [vl_hikm_delete, hg, xdelete_xmeans_eq_specDelete E t h h1 fuel hf data K]

/-- Witness for the amended C8 on the concrete depth-2 tree and on a
rootless tree. -/
theorem claim_C8_witness :
    (1 ≤ 2 ∧ 2 ≤ 2) ∧
    (vl_hikm_delete 2 tree0 = [FreeEvent.tree] ∧
     vl_hikm_delete 2 (vl_hikm_train constEngine tree0 data0) =
       specDelete 2 (xmeans constEngine tree0 data0 2 2) ++ [FreeEvent.tree]) := by
  refine ⟨⟨by decide, by decide⟩, ?_, ?_⟩
  · exact (claim_C8_delete_order constEngine tree0 data0 2 2 2
      (by decide) (by decide)).1 tree0 rfl
  · exact (claim_C8_delete_order constEngine tree0 data0 2 2 2
      (by decide) (by decide)).2 (vl_hikm_train constEngine tree0 data0) rfl

/-- C9: `vl_hikm_init(f, M, K, depth)` discards any existing trained
subtree — performing exactly the node frees a `vl_hikm_delete` would,
short of the tree record itself — and leaves the tree with dimensionality
`M`, branching factor `K`, the given depth, and a null root (Configured,
not Trained). -/
theorem claim_C9_init (fuel : Nat) (f : VlHIKMTree σ) (M K depth : Nat) :
    (vl_hikm_init fuel f M K depth).1.M = M ∧
    (vl_hikm_init fuel f M K depth).1.K = K ∧
    (vl_hikm_init fuel f M K depth).1.depth = depth ∧
    (vl_hikm_init fuel f M K depth).1.root = none ∧
    vl_hikm_delete fuel f = (vl_hikm_init fuel f M K depth).2 ++ [FreeEvent.tree] :=
  ⟨rfl, rfl, rfl, rfl, rfl⟩

/-- C10: in every tree `xmeans` builds (positive height), each allocated
children array has exactly `vl_ikm_get_K(node->filter)` entries — the same
`K` is passed to the children allocation and to the filter's training —
so the `xdelete` loop bounded by `vl_ikm_get_K` visits exactly the
allocated child slots, and any child access at an index below
`vl_ikm_get_K` (such as `node->children[best]` for a label `best` returned
by that same filter under the engine's range contract) stays within the
array. -/
theorem claim_C10_children_length (E : IKMEngine σ) (t : VlHIKMTree σ)
    (data : List (List Int)) (K h : Nat) (h1 : 1 ≤ h) :
    ChildrenMatchK (xmeans E t data K h) ∧
    (∀ (fl : VlIKMFilt σ) (cs : List (HIKMNode σ)),
      ChildrenMatchK (HIKMNode.internal fl cs) →
      ((List.range (vl_ikm_get_K fl)).map fun k => cs[k]?) = cs.map some) ∧
    (∀ (fl : VlIKMFilt σ) (cs : List (HIKMNode σ)) (best : Nat),
      ChildrenMatchK (HIKMNode.internal fl cs) → best < vl_ikm_get_K fl →
      (cs[best]?).isSome) := by
  refine ⟨xmeans_childrenMatchK E t h h1 data K, ?_, ?_⟩
  · intro fl cs hc
    have hclen : cs.length = vl_ikm_get_K fl := by
      cases hc with
      | internal _ _ hl _ => exact hl
    rw [← hclen]
    exact range_length_map_getElem? cs
  · intro fl cs best hc hb
    have hclen : cs.length = vl_ikm_get_K fl := by
      cases hc with
      | internal _ _ hl _ => exact hl
    rw [List.getElem?_eq_getElem (by omega)]
    rfl

/-- Witness for C10 on the concrete depth-2 tree. -/
theorem claim_C10_witness :
    1 ≤ 2 ∧ ChildrenMatchK (xmeans constEngine tree0 data0 2 2) :=
  ⟨by decide,
   (claim_C10_children_length constEngine tree0 data0 2 2 (by decide)).1⟩
